import Mathlib

/-!
Shallow embedding of the open-rcv tabulation core.

Sources embedded:
* `src/openrcv/counting.py` — `get_majority`, `get_winner`, `get_lowest`,
  `Tabulator.count_ballots`, `Tabulator.count`.
* `src/openrcv/models.py` — `normalize_ballots`.
* `src/openrcv/streams.py` — `tracked`, `StreamResourceBase.reading`,
  `ListResource.open_write`.

A ballot is a `(weight, choices)` pair (models.py module docstring); weights
are non-negative integers, choices are candidate numbers.  Python dicts keyed
by candidate are embedded as association lists whose key order is the dict's
insertion order; the eligible-candidate set is embedded as a list in iteration
order (iteration order only affects the order of dict keys, never the results
proved here).
-/

deriving instance DecidableEq for Except

namespace OpenRcv

/-- A ballot `(weight, choices)`, as described in the models.py docstring. -/
abbrev Ballot := Nat × List Nat

/-- counting.py `get_majority(total)`: `total // 2 + 1`. -/
def get_majority (total : Nat) : Nat := total / 2 + 1

/-- Sum of the vote totals of an association list of per-candidate totals
(`sum(totals.values())` in counting.py `get_winner`). -/
def totalVotes (totals : List (Nat × Nat)) : Nat := (totals.map Prod.snd).sum

/-- counting.py `get_winner(totals)`: the first candidate in iteration order
whose total meets the majority threshold, else `None`. -/
def get_winner (totals : List (Nat × Nat)) : Option Nat :=
  (totals.find? (fun p => decide (get_majority (totalVotes totals) ≤ p.2))).map Prod.fst

/-- One step of the loop body of counting.py `get_lowest`: the state is
`(lowest_total, lowest_candidates)`; `lowest_candidates` is kept as a list in
the order candidates were added to the Python set. -/
def lowestStep (st : Nat × List Nat) (p : Nat × Nat) : Nat × List Nat :=
  if p.2 < st.1 then (p.2, [p.1])
  else if p.2 = st.1 then (st.1, st.2 ++ [p.1])
  else st

/-- counting.py `get_lowest(totals)`: starts from `any_value(totals)` (the
first value; raises `ValueError("dict has no values")` on an empty dict) and
folds the loop body over all items.  The `Except` error carries the Python
`ValueError` message. -/
def get_lowest (totals : List (Nat × Nat)) : Except String (List Nat) :=
  match totals with
  | [] => .error "dict has no values"
  | (_, t0) :: _ => .ok ((totals.foldl lowestStep (t0, [])).2)

/-- The inner loop of counting.py `Tabulator.count_ballots`: the first choice
on the ballot that is a member of the eligible candidate set. -/
def firstEligible (eligible : List Nat) (choices : List Nat) : Option Nat :=
  choices.find? (fun choice => decide (choice ∈ eligible))

/-- `totals[choice] += weight` on an association list. -/
def addVote (totals : List (Nat × Nat)) (c : Nat) (w : Nat) : List (Nat × Nat) :=
  totals.map (fun p => if p.1 = c then (p.1, p.2 + w) else p)

/-- The loop body of counting.py `Tabulator.count_ballots`: a ballot adds its
weight to its first eligible choice, if any. -/
def tallyStep (eligible : List Nat) (totals : List (Nat × Nat)) (b : Ballot) :
    List (Nat × Nat) :=
  match firstEligible eligible b.2 with
  | some c => addVote totals c b.1
  | none => totals

/-- counting.py `Tabulator.count_ballots(candidate_numbers)`: totals start at
zero for every eligible candidate; each ballot adds its weight to the first
eligible choice, if any. -/
def count_ballots (ballots : List Ballot) (eligible : List Nat) : List (Nat × Nat) :=
  ballots.foldl (tallyStep eligible) (eligible.map (fun c => (c, 0)))

/-- counting.py / models.py `RoundResults`: the round's totals, plus the
`elected` list set by `Tabulator.count` on a winning round. -/
structure RoundResults where
  totals : List (Nat × Nat)
  elected : List Nat
  deriving DecidableEq

/-- Terminal state of counting.py `Tabulator.count`: a winner, a tied last
place, or an uncaught Python exception (carrying its message).  `fuelOut` is
an artifact of the fuel-indexed embedding of the `while True` loop and is
proved unreachable. -/
inductive Outcome where
  | won (w : Nat)
  | tiedLastPlace (ties : List Nat)
  | pyError (msg : String)
  | fuelOut
  deriving DecidableEq

/-- counting.py `ContestResults`: the rounds produced (in order) together
with the terminal outcome; `outcome.last_round` is `rounds.length`. -/
structure ContestResults where
  rounds : List RoundResults
  outcome : Outcome
  deriving DecidableEq

/-- The `while True` loop of counting.py `Tabulator.count`, indexed by fuel.
Each iteration counts one round, checks for a majority winner, otherwise
computes the lowest candidates: an empty totals dict raises `ValueError`
(from `any_value`), a tie of more than one ends the run, and otherwise the
single lowest candidate is removed (`candidate_numbers -= last_place`). -/
def countLoop (ballots : List Ballot) : Nat → List Nat → ContestResults
  | 0, _ => ⟨[], .fuelOut⟩
  | fuel + 1, eligible =>
    let totals := count_ballots ballots eligible
    match get_winner totals with
    | some w => ⟨[⟨totals, [w]⟩], .won w⟩
    | none =>
      match get_lowest totals with
      | .error msg => ⟨[⟨totals, []⟩], .pyError msg⟩
      | .ok last_place =>
        if 1 < last_place.length then ⟨[⟨totals, []⟩], .tiedLastPlace last_place⟩
        else
          let rest := countLoop ballots fuel (eligible.filter (fun c => decide (c ∉ last_place)))
          ⟨⟨totals, []⟩ :: rest.rounds, rest.outcome⟩

/-- counting.py `Tabulator.count`: run the loop on the full candidate list.
The fuel `candidates.length + 1` is sufficient (proved below): the loop can
only recurse after strictly shrinking the eligible list. -/
def count (ballots : List Ballot) (candidates : List Nat) : ContestResults :=
  countLoop ballots (candidates.length + 1) candidates

/-- Spec-side restatement of the round-totals invariant: the sum of the
weights of the ballots whose first eligible choice is `c`. -/
def tally (ballots : List Ballot) (eligible : List Nat) (c : Nat) : Nat :=
  ((ballots.filter (fun b => decide (firstEligible eligible b.2 = some c))).map Prod.fst).sum

/-- Python's `<` on tuples of candidate numbers, as used by `sorted` in
models.py `normalize_ballots`: strict lexicographic comparison, where a
proper prefix sorts before its extensions. -/
def choicesLt : List Nat → List Nat → Bool
  | [], [] => false
  | [], _ :: _ => true
  | _ :: _, [] => false
  | a :: as, b :: bs => if a < b then true else if b < a then false else choicesLt as bs

/-- The matching non-strict order: `x ≤ y` iff `¬ (y < x)`. -/
def choicesLe (x y : List Nat) : Bool := ! choicesLt y x

/-- `choicesLe` as a proposition, in the form `List.insertionSort` expects. -/
def cle (x y : List Nat) : Prop := choicesLe x y = true

instance : DecidableRel cle := fun _ _ => inferInstanceAs (Decidable (_ = true))

/-- The cumulative weight the `choices_dict` of models.py `normalize_ballots`
associates to a choice sequence: the sum of the weights of the source
ballots having exactly that choice sequence. -/
def cumWeight (source : List Ballot) (choices : List Nat) : Nat :=
  ((source.filter (fun b => decide (b.2 = choices))).map Prod.fst).sum

/-- models.py `normalize_ballots(source, target)`: one full read pass builds
`choices_dict` (embedded by its key list `(source.map Prod.snd).dedup` in
first-occurrence order, with lookup `cumWeight`), the distinct choice
sequences are sorted, and one ballot per sequence is written with its
cumulative weight.  Python's `sorted` is embedded as insertion sort by the
tuple order: the sorted permutation of a duplicate-free list under a total
antisymmetric order is unique, so the two agree. -/
def normalize_ballots (source : List Ballot) : List Ballot :=
  (List.insertionSort cle ((source.map Prod.snd).dedup)).map
    (fun choices => (cumWeight source choices, choices))

/-- models.py `normalize_ballots` run against streams.py `ListResource`s,
with the backing store made explicit: `store` maps a resource id to its
backing list, and source and target may be the same id.  The whole source
pass (dict building and the `sorted` call, models.py lines 82-89) completes
before `target.writing()` runs `ListResource.open_write`, which clears the
target's backing list (`self.seq.clear()`); each `ballots.write(ballot)`
then appends to the live list. -/
def normalizeStore (store : Nat → List Ballot) (src tgt : Nat) : Nat → List Ballot :=
  let source := store src
  let sortedChoices := List.insertionSort cle ((source.map Prod.snd).dedup)
  let cleared : Nat → List Ballot := fun i => if i = tgt then [] else store i
  sortedChoices.foldl
    (fun st choices => fun i =>
      if i = tgt then st i ++ [(cumWeight source choices, choices)] else st i)
    cleared

/-- A Python exception, by type name and message. -/
structure PyExc where
  ty : String
  msg : String
  deriving DecidableEq

/-- The message built by streams.py `tracked` when an exception is thrown
into the tracking generator: `"last read item from %r (number=%d): %r"`
rendered with the stream source, the 1-based item index, and the item. -/
def trackMsg (source : String) (i : Nat) (item : Nat) : String :=
  "last read item from " ++ source ++ " (number=" ++ toString i ++ "): " ++ toString item

/-- One reading pass through streams.py `StreamResourceBase.reading` with a
consumer loop, embedding Python's generator semantics.  `items` are the
values the backing store yields before it either ends normally or raises
`storeErr`; `body i item` is the exception (if any) the consumer's loop body
raises while processing the 1-based `i`-th item; the result is the exception
that propagates out of the `with resource.reading()` scope, if any.
Derivation from the source:
* a consumer exception propagates out of the `with` body; `reading` catches
  it and calls `gen.throw(exc)`, which resumes `tracked` at its `yield item`
  inside the `try`; `tracked` catches it and raises `type(exc)(...)` with
  the positional message — same type, message from `trackMsg`;
* an exception raised by the backing store itself occurs when `tracked`'s
  `for` loop calls `next` on the underlying iterator; the `try` block only
  guards the `yield`, so the tracking generator terminates and the original
  exception propagates; `reading`'s subsequent `gen.throw(exc)` on the
  already-finished generator re-raises it unchanged. -/
def readingRun (source : String) (body : Nat → Nat → Option PyExc) :
    Nat → List Nat → Option PyExc → Option PyExc
  | _, [], storeErr => storeErr
  | i, item :: rest, storeErr =>
    match body i item with
    | some exc => some ⟨exc.ty, trackMsg source i item⟩
    | none => readingRun source body (i + 1) rest storeErr

/-- A full pass: item numbering starts at 1 (`enumerate(iterable, start=1)`
in streams.py `tracked`). -/
def runReading (source : String) (items : List Nat) (storeErr : Option PyExc)
    (body : Nat → Nat → Option PyExc) : Option PyExc :=
  readingRun source body 1 items storeErr

end OpenRcv

namespace OpenRcv

/-! ### Lemmas about one counting round -/

theorem addVote_keys (totals : List (Nat × Nat)) (c w : Nat) :
    (addVote totals c w).map Prod.fst = totals.map Prod.fst := by
  induction totals with
  | nil => rfl
  | cons p l ih =>
    have h1 : (if p.1 = c then (p.1, p.2 + w) else p).1 = p.1 := by split <;> rfl
    simpa [addVote, h1] using ih

theorem addVote_mem {totals : List (Nat × Nat)} {c w x t : Nat}
    (h : (x, t) ∈ addVote totals c w) :
    ∃ t0, (x, t0) ∈ totals ∧ t = (if x = c then t0 + w else t0) := by
  rcases List.mem_map.1 h with ⟨p, hp, heq⟩
  by_cases hc : p.1 = c
  · rw [if_pos hc] at heq
    cases heq
    exact ⟨p.2, by simpa using hp, by simp [hc]⟩
  · rw [if_neg hc] at heq
    cases heq
    exact ⟨t, by simpa using hp, by simp [hc]⟩

theorem tally_cons (b : Ballot) (bs : List Ballot) (eligible : List Nat) (c : Nat) :
    tally (b :: bs) eligible c =
      (if firstEligible eligible b.2 = some c then b.1 else 0) + tally bs eligible c := by
  by_cases h : firstEligible eligible b.2 = some c <;>
    simp [tally, List.filter_cons, h]

theorem foldl_tallyStep_mem (eligible : List Nat) (ballots : List Ballot) :
    ∀ (totals : List (Nat × Nat)) (c w : Nat),
      (c, w) ∈ ballots.foldl (tallyStep eligible) totals →
      ∃ w0, (c, w0) ∈ totals ∧ w = w0 + tally ballots eligible c := by
  induction ballots with
  | nil => exact fun totals c w h => ⟨w, h, by simp [tally]⟩
  | cons b bs ih =>
    intro totals c w h
    rw [List.foldl_cons] at h
    rcases ih _ c w h with ⟨w0, hw0, hsum⟩
    cases hfe : firstEligible eligible b.2 with
    | none =>
      simp only [tallyStep, hfe] at hw0
      exact ⟨w0, hw0, by rw [hsum, tally_cons, hfe]; simp⟩
    | some c' =>
      simp only [tallyStep, hfe] at hw0
      rcases addVote_mem hw0 with ⟨w1, hw1, hif⟩
      refine ⟨w1, hw1, ?_⟩
      rw [tally_cons, hfe]
      by_cases hcc : c = c'
      · subst hcc
        rw [if_pos rfl] at hif
        rw [if_pos rfl]
        omega
      · rw [if_neg hcc] at hif
        have : ¬ (some c' = some c) := by simpa using fun e => hcc e.symm
        rw [if_neg this]
        omega

theorem foldl_tallyStep_keys (eligible : List Nat) (ballots : List Ballot) :
    ∀ totals : List (Nat × Nat),
      (ballots.foldl (tallyStep eligible) totals).map Prod.fst = totals.map Prod.fst := by
  induction ballots with
  | nil => exact fun _ => rfl
  | cons b bs ih =>
    intro totals
    rw [List.foldl_cons, ih]
    cases hfe : firstEligible eligible b.2 <;> simp [tallyStep, hfe, addVote_keys]

theorem count_ballots_keys (ballots : List Ballot) (eligible : List Nat) :
    (count_ballots ballots eligible).map Prod.fst = eligible := by
  rw [count_ballots, foldl_tallyStep_keys, List.map_map]
  exact List.map_id' eligible

theorem count_ballots_value {ballots : List Ballot} {eligible : List Nat} {c w : Nat}
    (h : (c, w) ∈ count_ballots ballots eligible) : w = tally ballots eligible c := by
  rcases foldl_tallyStep_mem eligible ballots _ c w h with ⟨w0, h0, hsum⟩
  rcases List.mem_map.1 h0 with ⟨a, _, heq⟩
  cases heq
  omega

/-- C2: one counting round (`Tabulator.count_ballots`) returns totals whose
keys are exactly the eligible candidates; each candidate's value is the sum
of the weights of the ballots whose first eligible choice is that candidate;
a ballot with no eligible choice (in particular one with an empty choice
list) contributes to no candidate's total. -/
theorem count_ballots_round_invariant (ballots : List Ballot) (eligible : List Nat) :
    ((count_ballots ballots eligible).map Prod.fst = eligible) ∧
    (∀ c w, (c, w) ∈ count_ballots ballots eligible → w = tally ballots eligible c) ∧
    (∀ c, c ∈ eligible → (c, tally ballots eligible c) ∈ count_ballots ballots eligible) ∧
    (∀ b : Ballot, firstEligible eligible b.2 = none →
      count_ballots (ballots ++ [b]) eligible = count_ballots ballots eligible) := by
  have hval : ∀ c w, (c, w) ∈ count_ballots ballots eligible → w = tally ballots eligible c :=
    fun _ _ h => count_ballots_value h
  refine ⟨count_ballots_keys ballots eligible, hval, ?_, ?_⟩
  · intro c hc
    have hk := count_ballots_keys ballots eligible
    have hc' : c ∈ (count_ballots ballots eligible).map Prod.fst := by rw [hk]; exact hc
    rcases List.mem_map.1 hc' with ⟨p, hp, hfst⟩
    have hv := hval p.1 p.2 (by simpa using hp)
    have : (c, tally ballots eligible c) = p := by
      rw [← hfst, ← hv]
    rw [this]
    exact hp
  · intro b hb
    rw [count_ballots, count_ballots, List.foldl_append]
    simp [tallyStep, hb]

/-- Witness for C2 at the scenario input: candidate 1's round-1 total is 5. -/
theorem count_ballots_round_invariant_witness :
    (5 : Nat) = tally [(5,[1,2]),(3,[2,1]),(2,[3,1])] [1,2,3] 1 :=
  (count_ballots_round_invariant [(5,[1,2]),(3,[2,1]),(2,[3,1])] [1,2,3]).2.1 1 5 (by decide)

/-! ### Majority and `get_winner` -/

theorem snd_le_totalVotes {l : List (Nat × Nat)} {p : Nat × Nat} (h : p ∈ l) :
    p.2 ≤ totalVotes l := by
  induction l with
  | nil => cases h
  | cons q l ih =>
    rcases List.mem_cons.1 h with h | h
    · subst h; simp [totalVotes]
    · have := ih h
      simp only [totalVotes, List.map_cons, List.sum_cons] at *
      omega

theorem get_winner_meets {totals : List (Nat × Nat)} {c : Nat}
    (h : get_winner totals = some c) :
    ∃ t, (c, t) ∈ totals ∧ get_majority (totalVotes totals) ≤ t := by
  rcases Option.map_eq_some'.1 h with ⟨p, hp, hc⟩
  refine ⟨p.2, ?_, ?_⟩
  · rw [← hc]
    simpa using List.mem_of_find?_eq_some hp
  · simpa using List.find?_some hp

theorem get_winner_unique {totals : List (Nat × Nat)} {p q : Nat × Nat}
    (hp : p ∈ totals) (hq : q ∈ totals)
    (hpm : get_majority (totalVotes totals) ≤ p.2)
    (hqm : get_majority (totalVotes totals) ≤ q.2) : p = q := by
  by_cases hpq : p = q
  · exact hpq
  · exfalso
    rcases List.append_of_mem hp with ⟨s, t, rfl⟩
    have hsum : totalVotes (s ++ p :: t) = totalVotes s + (p.2 + totalVotes t) := by
      simp [totalVotes]
    rw [hsum] at hpm hqm
    simp only [get_majority] at hpm hqm
    rcases List.mem_append.1 hq with hqs | hqt
    · have hle := snd_le_totalVotes hqs
      omega
    · rcases List.mem_cons.1 hqt with h | h
      · exact hpq h.symm
      · have hle := snd_le_totalVotes h
        omega

theorem get_winner_isSome {totals : List (Nat × Nat)}
    (h : ∃ p ∈ totals, get_majority (totalVotes totals) ≤ p.2) :
    ∃ c, get_winner totals = some c := by
  rcases h with ⟨p, hp, hm⟩
  have hs : (totals.find? (fun p => decide (get_majority (totalVotes totals) ≤ p.2))).isSome :=
    List.find?_isSome.2 ⟨p, hp, by simpa using hm⟩
  rcases Option.isSome_iff_exists.1 hs with ⟨q, hq⟩
  exact ⟨q.1, by rw [get_winner, hq]; rfl⟩

theorem get_winner_none {totals : List (Nat × Nat)}
    (h : ∀ p ∈ totals, p.2 < get_majority (totalVotes totals)) :
    get_winner totals = none := by
  have hn : totals.find? (fun p => decide (get_majority (totalVotes totals) ≤ p.2)) = none :=
    List.find?_eq_none.2 (fun x hx => by simpa using Nat.not_le.2 (h x hx))
  rw [get_winner, hn]
  rfl

theorem get_winner_eq_some_iff {totals : List (Nat × Nat)} {c : Nat} :
    get_winner totals = some c ↔
      ∃ t, (c, t) ∈ totals ∧ get_majority (totalVotes totals) ≤ t := by
  constructor
  · exact get_winner_meets
  · rintro ⟨t, ht, hm⟩
    rcases get_winner_isSome ⟨(c, t), ht, by simpa using hm⟩ with ⟨c', hc'⟩
    rcases get_winner_meets hc' with ⟨t', ht', hm'⟩
    have heq : ((c', t') : Nat × Nat) = (c, t) := get_winner_unique ht' ht hm' hm
    injection heq with h1 h2
    rw [← h1]
    exact hc'

theorem get_winner_perm {l1 l2 : List (Nat × Nat)} (h : l1.Perm l2) :
    get_winner l1 = get_winner l2 := by
  have htot : totalVotes l1 = totalVotes l2 := (h.map Prod.snd).sum_eq
  cases hw : get_winner l2 with
  | some c =>
    rcases get_winner_meets hw with ⟨t, ht, hm⟩
    exact get_winner_eq_some_iff.2 ⟨t, h.mem_iff.2 ht, by rw [htot]; exact hm⟩
  | none =>
    cases hw1 : get_winner l1 with
    | none => rfl
    | some c =>
      rcases get_winner_meets hw1 with ⟨t, ht, hm⟩
      rcases @get_winner_isSome l2
        ⟨(c, t), h.mem_iff.1 ht, by rw [← htot]; simpa using hm⟩ with ⟨c', hc'⟩
      rw [hw] at hc'
      exact absurd hc' (by simp)

/-- C3: `get_majority total` is `total / 2 + 1`; `get_winner` returns a
candidate meeting the threshold exactly when one exists; at most one entry
can meet the threshold, so the result is invariant under reordering of the
totals; a total of 0 yields threshold 1 and no winner. -/
theorem get_winner_majority_spec (totals : List (Nat × Nat)) :
    (∀ total : Nat, get_majority total = total / 2 + 1) ∧
    (∀ c, get_winner totals = some c →
      ∃ t, (c, t) ∈ totals ∧ get_majority (totalVotes totals) ≤ t) ∧
    ((∃ p ∈ totals, get_majority (totalVotes totals) ≤ p.2) →
      ∃ c, get_winner totals = some c) ∧
    ((∀ p ∈ totals, p.2 < get_majority (totalVotes totals)) → get_winner totals = none) ∧
    (∀ p q, p ∈ totals → q ∈ totals → get_majority (totalVotes totals) ≤ p.2 →
      get_majority (totalVotes totals) ≤ q.2 → p = q) ∧
    (∀ totals' : List (Nat × Nat), totals'.Perm totals →
      get_winner totals' = get_winner totals) ∧
    (totalVotes totals = 0 → get_winner totals = none) := by
  refine ⟨fun _ => rfl, fun c h => get_winner_meets h, get_winner_isSome, get_winner_none,
    fun p q hp hq hpm hqm => get_winner_unique hp hq hpm hqm,
    fun totals' h => get_winner_perm h, ?_⟩
  intro h0
  apply get_winner_none
  intro p hp
  have hle := snd_le_totalVotes hp
  rw [h0] at hle
  simp [get_majority, h0]
  omega

/-- Witness for C3 at the round-2 totals of the scenario contest. -/
theorem get_winner_majority_spec_witness :
    ∃ t, (1, t) ∈ [(1,7),(2,3)] ∧ get_majority (totalVotes [(1,7),(2,3)]) ≤ t :=
  (get_winner_majority_spec [(1,7),(2,3)]).2.1 1 (by decide)

/-! ### Lowest candidates: `get_lowest` -/

theorem lowestStep_fst_le (st : Nat × List Nat) (p : Nat × Nat) :
    (lowestStep st p).1 ≤ st.1 := by
  unfold lowestStep
  split
  · exact Nat.le_of_lt (by assumption)
  · split
    · exact Nat.le_refl _
    · exact Nat.le_refl _

theorem foldl_lowestStep_fst_le (L : List (Nat × Nat)) :
    ∀ st : Nat × List Nat, (L.foldl lowestStep st).1 ≤ st.1 := by
  induction L with
  | nil => exact fun _ => Nat.le_refl _
  | cons p L ih =>
    intro st
    rw [List.foldl_cons]
    exact Nat.le_trans (ih _) (lowestStep_fst_le st p)

theorem foldl_lowestStep_le_val (L : List (Nat × Nat)) :
    ∀ st : Nat × List Nat, ∀ p ∈ L, (L.foldl lowestStep st).1 ≤ p.2 := by
  induction L with
  | nil => intro st p hp; cases hp
  | cons q L ih =>
    intro st p hp
    rw [List.foldl_cons]
    rcases List.mem_cons.1 hp with h | h
    · subst h
      refine Nat.le_trans (foldl_lowestStep_fst_le L _) ?_
      unfold lowestStep
      split
      · exact Nat.le_refl _
      · split
        · next h2 => exact Nat.le_of_eq h2.symm
        · next h1 h2 => omega
    · exact ih _ p h

theorem foldl_lowestStep_ne_nil (L : List (Nat × Nat)) :
    ∀ st : Nat × List Nat, st.2 ≠ [] → (L.foldl lowestStep st).2 ≠ [] := by
  induction L with
  | nil => exact fun _ h => h
  | cons p L ih =>
    intro st h
    rw [List.foldl_cons]
    apply ih
    unfold lowestStep
    split
    · simp
    · split
      · simp
      · exact h

theorem foldl_lowestStep_mem (L : List (Nat × Nat)) :
    ∀ (m : Nat) (acc : List Nat) (x : Nat),
      x ∈ (L.foldl lowestStep (m, acc)).2 ↔
        (x ∈ acc ∧ (L.foldl lowestStep (m, acc)).1 = m) ∨
        (∃ t, (x, t) ∈ L ∧ t = (L.foldl lowestStep (m, acc)).1) := by
  induction L with
  | nil => intro m acc x; simp
  | cons p L ih =>
    intro m acc x
    by_cases h1 : p.2 < m
    · have hstep : (p :: L).foldl lowestStep (m, acc) = L.foldl lowestStep (p.2, [p.1]) := by
        rw [List.foldl_cons]
        congr 1
        unfold lowestStep
        rw [if_pos h1]
      rw [hstep, ih]
      have hle : (L.foldl lowestStep (p.2, [p.1])).1 ≤ p.2 := foldl_lowestStep_fst_le L _
      constructor
      · rintro (⟨hx, hfst⟩ | ⟨t, ht, hteq⟩)
        · rw [List.mem_singleton] at hx
          subst hx
          exact Or.inr ⟨p.2, by rw [Prod.mk.eta]; exact List.mem_cons_self p L, hfst.symm⟩
        · exact Or.inr ⟨t, List.mem_cons_of_mem _ ht, hteq⟩
      · rintro (⟨hx, hfst⟩ | ⟨t, ht, hteq⟩)
        · omega
        · rcases List.mem_cons.1 ht with heq | hmem
          · left
            have hx : x = p.1 := congrArg Prod.fst heq
            have ht2 : t = p.2 := congrArg Prod.snd heq
            subst hx
            exact ⟨List.mem_singleton_self _, by omega⟩
          · exact Or.inr ⟨t, hmem, hteq⟩
    · by_cases h2 : p.2 = m
      · have hstep : (p :: L).foldl lowestStep (m, acc) = L.foldl lowestStep (m, acc ++ [p.1]) := by
          rw [List.foldl_cons]
          congr 1
          unfold lowestStep
          rw [if_neg h1, if_pos h2]
        rw [hstep, ih]
        constructor
        · rintro (⟨hx, hfst⟩ | ⟨t, ht, hteq⟩)
          · rcases List.mem_append.1 hx with hxa | hxp
            · exact Or.inl ⟨hxa, hfst⟩
            · rw [List.mem_singleton] at hxp
              subst hxp
              exact Or.inr ⟨p.2, by rw [Prod.mk.eta]; exact List.mem_cons_self p L, by omega⟩
          · exact Or.inr ⟨t, List.mem_cons_of_mem _ ht, hteq⟩
        · rintro (⟨hx, hfst⟩ | ⟨t, ht, hteq⟩)
          · exact Or.inl ⟨List.mem_append_left _ hx, hfst⟩
          · rcases List.mem_cons.1 ht with heq | hmem
            · left
              have hx : x = p.1 := congrArg Prod.fst heq
              have ht2 : t = p.2 := congrArg Prod.snd heq
              subst hx
              exact ⟨List.mem_append_right _ (List.mem_singleton_self _), by omega⟩
            · exact Or.inr ⟨t, hmem, hteq⟩
      · have hstep : (p :: L).foldl lowestStep (m, acc) = L.foldl lowestStep (m, acc) := by
          rw [List.foldl_cons]
          congr 1
          unfold lowestStep
          rw [if_neg h1, if_neg h2]
        rw [hstep, ih]
        have hle : (L.foldl lowestStep (m, acc)).1 ≤ m := foldl_lowestStep_fst_le L _
        constructor
        · rintro (⟨hx, hfst⟩ | ⟨t, ht, hteq⟩)
          · exact Or.inl ⟨hx, hfst⟩
          · exact Or.inr ⟨t, List.mem_cons_of_mem _ ht, hteq⟩
        · rintro (⟨hx, hfst⟩ | ⟨t, ht, hteq⟩)
          · exact Or.inl ⟨hx, hfst⟩
          · rcases List.mem_cons.1 ht with heq | hmem
            · exfalso
              have ht2 : t = p.2 := congrArg Prod.snd heq
              omega
            · exact Or.inr ⟨t, hmem, hteq⟩

theorem get_lowest_spec {totals : List (Nat × Nat)} {l : List Nat}
    (h : get_lowest totals = .ok l) :
    l ≠ [] ∧ ∀ x, (x ∈ l ↔ ∃ t, (x, t) ∈ totals ∧ ∀ q ∈ totals, t ≤ q.2) := by
  cases totals with
  | nil => simp [get_lowest] at h
  | cons p rest =>
    obtain ⟨c0, t0⟩ := p
    simp only [get_lowest, Except.ok.injEq] at h
    subst h
    have hstep : lowestStep (t0, ([] : List Nat)) (c0, t0) = (t0, [c0]) := by
      unfold lowestStep
      simp
    have hfold : ((c0, t0) :: rest).foldl lowestStep (t0, []) =
        rest.foldl lowestStep (t0, [c0]) := by
      rw [List.foldl_cons, hstep]
    constructor
    · rw [hfold]
      exact foldl_lowestStep_ne_nil rest _ (by simp)
    · intro x
      rw [foldl_lowestStep_mem]
      constructor
      · rintro (⟨hx, _⟩ | ⟨t, ht, hteq⟩)
        · cases hx
        · exact ⟨t, ht, fun q hq => hteq ▸ foldl_lowestStep_le_val _ _ q hq⟩
      · rintro ⟨t, ht, hmin⟩
        have hle1 : (((c0, t0) :: rest).foldl lowestStep (t0, [])).1 ≤ t :=
          foldl_lowestStep_le_val _ _ (x, t) ht
        have hne : (((c0, t0) :: rest).foldl lowestStep (t0, [])).2 ≠ [] := by
          rw [hfold]
          exact foldl_lowestStep_ne_nil rest _ (by simp)
        rcases List.exists_mem_of_ne_nil _ hne with ⟨y, hy⟩
        rcases (foldl_lowestStep_mem _ t0 [] y).1 hy with ⟨hy', _⟩ | ⟨ty, hty, htyeq⟩
        · cases hy'
        · have hle2 : t ≤ ty := hmin (y, ty) hty
          right
          exact ⟨t, ht, by omega⟩

/-! ### The tabulation loop -/

theorem mem_count_ballots_key {ballots : List Ballot} {eligible : List Nat} {q : Nat × Nat}
    (h : q ∈ count_ballots ballots eligible) : q.1 ∈ eligible := by
  have hk := count_ballots_keys ballots eligible
  rw [← hk]
  exact List.mem_map_of_mem _ h

theorem countLoop_succ (ballots : List Ballot) (fuel : Nat) (eligible : List Nat) :
    countLoop ballots (fuel + 1) eligible =
      match get_winner (count_ballots ballots eligible) with
      | some w => ⟨[⟨count_ballots ballots eligible, [w]⟩], .won w⟩
      | none =>
        match get_lowest (count_ballots ballots eligible) with
        | .error msg => ⟨[⟨count_ballots ballots eligible, []⟩], .pyError msg⟩
        | .ok last_place =>
          if 1 < last_place.length then
            ⟨[⟨count_ballots ballots eligible, []⟩], .tiedLastPlace last_place⟩
          else
            ⟨⟨count_ballots ballots eligible, []⟩ ::
              (countLoop ballots fuel
                (eligible.filter (fun c => decide (c ∉ last_place)))).rounds,
              (countLoop ballots fuel
                (eligible.filter (fun c => decide (c ∉ last_place)))).outcome⟩ := rfl

theorem eligible_ne_nil_of_winner {ballots : List Ballot} {eligible : List Nat} {w : Nat}
    (hw : get_winner (count_ballots ballots eligible) = some w) : eligible ≠ [] := by
  rcases get_winner_meets hw with ⟨t, ht, _⟩
  intro he
  subst he
  cases mem_count_ballots_key ht

theorem eligible_ne_nil_of_lowest {ballots : List Ballot} {eligible : List Nat} {l : List Nat}
    (hl : get_lowest (count_ballots ballots eligible) = .ok l) : eligible ≠ [] := by
  rcases get_lowest_spec hl with ⟨hne, hchar⟩
  rcases List.exists_mem_of_ne_nil _ hne with ⟨x, hx⟩
  rcases (hchar x).1 hx with ⟨t, ht, _⟩
  intro he
  subst he
  cases mem_count_ballots_key ht

theorem lowest_mem_eligible {ballots : List Ballot} {eligible : List Nat} {l : List Nat}
    {x : Nat} (hl : get_lowest (count_ballots ballots eligible) = .ok l) (hx : x ∈ l) :
    x ∈ eligible := by
  rcases get_lowest_spec hl with ⟨_, hchar⟩
  rcases (hchar x).1 hx with ⟨t, ht, _⟩
  exact mem_count_ballots_key ht

theorem countLoop_spec (ballots : List Ballot) :
    ∀ (fuel : Nat) (eligible : List Nat), eligible.length < fuel →
      ((countLoop ballots fuel eligible).outcome ≠ .fuelOut) ∧
      ((countLoop ballots fuel eligible).rounds.length ≤ eligible.length + 1) ∧
      (∀ w, (countLoop ballots fuel eligible).outcome = .won w →
        (countLoop ballots fuel eligible).rounds.length ≤ eligible.length) ∧
      (∀ ts, (countLoop ballots fuel eligible).outcome = .tiedLastPlace ts →
        (countLoop ballots fuel eligible).rounds.length ≤ eligible.length) := by
  intro fuel
  induction fuel with
  | zero => intro eligible h; omega
  | succ fuel ih =>
    intro eligible hlen
    cases hw : get_winner (count_ballots ballots eligible) with
    | some w =>
      have hne : eligible ≠ [] := eligible_ne_nil_of_winner hw
      have h1 : 1 ≤ eligible.length := List.length_pos.2 hne
      simp only [countLoop_succ, hw]
      refine ⟨by simp, by simp, ?_, ?_⟩
      · intro w' _
        simpa using h1
      · intro ts hts
        simp at hts
    | none =>
      cases hlow : get_lowest (count_ballots ballots eligible) with
      | error msg =>
        simp only [countLoop_succ, hw, hlow]
        refine ⟨by simp, by simp, ?_, ?_⟩
        · intro w' hw'
          simp at hw'
        · intro ts hts
          simp at hts
      | ok l =>
        have hne : eligible ≠ [] := eligible_ne_nil_of_lowest hlow
        have h1 : 1 ≤ eligible.length := List.length_pos.2 hne
        by_cases htie : 1 < l.length
        · simp only [countLoop_succ, hw, hlow, if_pos htie]
          refine ⟨by simp, by simp, ?_, ?_⟩
          · intro w' hw'
            simp at hw'
          · intro ts _
            simpa using h1
        · rcases get_lowest_spec hlow with ⟨hlne, _⟩
          rcases List.exists_mem_of_ne_nil _ hlne with ⟨m, hm⟩
          have hmelig : m ∈ eligible := lowest_mem_eligible hlow hm
          have hflt : (eligible.filter (fun c => decide (c ∉ l))).length < eligible.length :=
            List.length_filter_lt_length_iff_exists.2 ⟨m, hmelig, by simp [hm]⟩
          have hlen' : (eligible.filter (fun c => decide (c ∉ l))).length < fuel := by omega
          have hrec := ih _ hlen'
          simp only [countLoop_succ, hw, hlow, if_neg htie]
          refine ⟨by simpa using hrec.1, ?_, ?_, ?_⟩
          · simp only [List.length_cons]
            have := hrec.2.1
            omega
          · intro w' hw'
            have := hrec.2.2.1 w' hw'
            simp only [List.length_cons]
            omega
          · intro ts hts
            have := hrec.2.2.2 ts hts
            simp only [List.length_cons]
            omega

/-- C4 (amended): each round that completes with neither a winner nor a tie
removes exactly one candidate — the unique candidate with the strictly
lowest total, per `get_lowest` — so a run that reaches a winner or a tie
does so within (initial candidate count) rounds, and any run takes at most
one round more (the extra round is the aborting `ValueError` round reached
when the last candidate has been eliminated). -/
theorem count_elimination_termination (ballots : List Ballot) (candidates : List Nat)
    (hnd : candidates.Nodup) :
    ((count ballots candidates).outcome ≠ .fuelOut) ∧
    ((count ballots candidates).rounds.length ≤ candidates.length + 1) ∧
    (∀ w, (count ballots candidates).outcome = .won w →
      (count ballots candidates).rounds.length ≤ candidates.length) ∧
    (∀ ts, (count ballots candidates).outcome = .tiedLastPlace ts →
      (count ballots candidates).rounds.length ≤ candidates.length) ∧
    (∀ l, get_winner (count_ballots ballots candidates) = none →
      get_lowest (count_ballots ballots candidates) = .ok l → ¬ 1 < l.length →
      ∃ m tm, l = [m] ∧ m ∈ candidates ∧ (m, tm) ∈ count_ballots ballots candidates ∧
        (∀ q ∈ count_ballots ballots candidates, q.1 ≠ m → tm < q.2) ∧
        (candidates.filter (fun c => decide (c ∉ l))).length + 1 = candidates.length) := by
  have hmain := countLoop_spec ballots (candidates.length + 1) candidates (by omega)
  refine ⟨hmain.1, hmain.2.1, hmain.2.2.1, hmain.2.2.2, ?_⟩
  intro l _ hlow htie
  rcases get_lowest_spec hlow with ⟨hlne, hchar⟩
  obtain ⟨m, rfl⟩ : ∃ m, l = [m] := by
    cases l with
    | nil => exact absurd rfl hlne
    | cons m tl =>
      cases tl with
      | nil => exact ⟨m, rfl⟩
      | cons b tl2 => simp at htie
  rcases (hchar m).1 (List.mem_singleton_self m) with ⟨tm, htm, hmin⟩
  have hmelig : m ∈ candidates := mem_count_ballots_key htm
  refine ⟨m, tm, rfl, hmelig, htm, ?_, ?_⟩
  · intro q hq hqm
    have hle : tm ≤ q.2 := hmin q hq
    rcases Nat.lt_or_ge tm q.2 with hlt | hge
    · exact hlt
    · exfalso
      have hqt : q.2 = tm := by omega
      have : q.1 ∈ [m] := by
        apply (hchar q.1).2
        refine ⟨q.2, by simpa using hq, ?_⟩
        intro r hr
        rw [hqt]
        exact hmin r hr
      exact hqm (List.mem_singleton.1 this)
  · have hcongr : candidates.filter (fun c => decide (c ∉ [m])) =
        candidates.filter (fun c => c != m) := by
      apply List.filter_congr
      intro a _
      by_cases h : a = m <;> simp [h]
    rw [hcongr, ← hnd.erase_eq_filter m, List.length_erase_of_mem hmelig]
    have h1 : 1 ≤ candidates.length := List.length_pos.2 (by
      intro he
      subst he
      cases hmelig)
    omega

/-- Witness for C4 at the scenario contest, which ends with a winner: the
round count is bounded by the candidate count. -/
theorem count_elimination_termination_witness :
    (count [(5,[1,2]),(3,[2,1]),(2,[3,1])] [1,2,3]).rounds.length ≤ 3 :=
  (count_elimination_termination [(5,[1,2]),(3,[2,1]),(2,[3,1])] [1,2,3]
    (by decide)).2.2.1 1 (by decide)

/-- C4 counterexample: a single-candidate contest with no ballots runs the
loop body twice — two rounds are produced for one initial candidate — and
aborts with `ValueError` rather than reaching a terminal state within
(candidate count) rounds. -/
theorem count_rounds_bound_cex :
    (count [] [1]).rounds.length = 2 ∧ ¬ ((count [] [1]).rounds.length ≤ 1) ∧
    (count [] [1]).outcome = .pyError "dict has no values" := by decide

/-! ### Degenerate contests -/

theorem count_ballots_nil_eligible (ballots : List Ballot) :
    count_ballots ballots [] = [] := by
  have hk := count_ballots_keys ballots []
  exact List.map_eq_nil_iff.1 hk

/-- C7 (amended): with an empty candidate set the tabulation performs a full
counting pass over the ballots, records a round with empty totals, and only
then fails with `ValueError("dict has no values")` raised by `any_value`
inside `get_lowest` — there is no `ConfigurationError` check before
counting. -/
theorem empty_candidates_value_error (ballots : List Ballot) :
    count ballots [] = ⟨[⟨[], []⟩], .pyError "dict has no values"⟩ := by
  show countLoop ballots (0 + 1) [] = _
  rw [countLoop_succ, count_ballots_nil_eligible]
  exact rfl

/-- C7 counterexample: at a concrete contest (empty candidate set, one
ballot) a round result is produced — counting does begin — and the failure
is the generic `ValueError` from `any_value`, not a configuration error
raised before counting. -/
theorem empty_candidates_cex :
    count [(1,[1])] [] = ⟨[⟨[], []⟩], .pyError "dict has no values"⟩ ∧
    (count [(1,[1])] []).rounds.length = 1 := by decide

theorem firstEligible_single {c : Nat} {choices : List Nat} (h : c ∈ choices) :
    firstEligible [c] choices = some c := by
  induction choices with
  | nil => cases h
  | cons a rest ih =>
    by_cases hac : a = c
    · subst hac
      simp [firstEligible]
    · have h2 : c ∈ rest := by
        rcases List.mem_cons.1 h with h1 | h1
        · exact absurd h1.symm hac
        · exact h1
      have hrec := ih h2
      simp only [firstEligible] at hrec ⊢
      rw [List.find?_cons_of_neg _ (by simp [hac]), hrec]

theorem le_sum_of_mem {l : List Nat} {x : Nat} (h : x ∈ l) : x ≤ l.sum := by
  induction l with
  | nil => cases h
  | cons a l ih =>
    rcases List.mem_cons.1 h with rfl | h2
    · simp
    · have := ih h2
      simp only [List.sum_cons]
      omega

theorem tally_pos {c : Nat} {ballots : List Ballot}
    (h : ∃ b ∈ ballots, 0 < b.1 ∧ c ∈ b.2) : 1 ≤ tally ballots [c] c := by
  rcases h with ⟨b, hb, hw, hc⟩
  have hfe : firstEligible [c] b.2 = some c := firstEligible_single hc
  have hmem : b ∈ ballots.filter (fun b => decide (firstEligible [c] b.2 = some c)) :=
    List.mem_filter.2 ⟨hb, by simp [hfe]⟩
  have : b.1 ≤ tally ballots [c] c :=
    le_sum_of_mem (List.mem_map_of_mem Prod.fst hmem)
  omega

theorem count_ballots_single {c : Nat} (ballots : List Ballot) :
    count_ballots ballots [c] = [(c, tally ballots [c] c)] := by
  have hk := count_ballots_keys ballots [c]
  cases htot : count_ballots ballots [c] with
  | nil => rw [htot] at hk; cases hk
  | cons p rest =>
    rw [htot] at hk
    simp only [List.map_cons, List.cons.injEq] at hk
    obtain ⟨hp1, hrest⟩ := hk
    have hrestnil : rest = [] := List.map_eq_nil_iff.1 hrest
    subst hrestnil
    have hpmem : p ∈ count_ballots ballots [c] := by rw [htot]; exact List.mem_cons_self p []
    have hp2 : p.2 = tally ballots [c] c := by
      have hv : p.2 = tally ballots [c] p.1 :=
        count_ballots_value (by rw [Prod.mk.eta]; exact hpmem)
      rw [hp1] at hv
      exact hv
    have hpe : (p.1, p.2) = (c, tally ballots [c] c) := by rw [hp1, hp2]
    rw [Prod.mk.eta] at hpe
    rw [hpe]

/-- C8 (amended): with a single candidate `c` and at least one ballot of
positive weight listing `c`, the round-1 total is positive and `c` is
elected in round 1; with zero ballots the threshold is `get_majority 0 = 1`,
no candidate is elected in round 1, and the run then aborts in round 2 with
`ValueError("dict has no values")` instead of ending in an unresolved
terminal state. -/
theorem single_candidate_spec (c : Nat) (ballots : List Ballot)
    (h : ∃ b ∈ ballots, 0 < b.1 ∧ c ∈ b.2) :
    (1 ≤ tally ballots [c] c ∧
      count ballots [c] = ⟨[⟨[(c, tally ballots [c] c)], [c]⟩], .won c⟩) ∧
    (get_majority 0 = 1 ∧
      count [] [c] = ⟨[⟨[(c, 0)], []⟩, ⟨[], []⟩], .pyError "dict has no values"⟩) := by
  have hpos := tally_pos h
  have htot := @count_ballots_single c ballots
  refine ⟨⟨hpos, ?_⟩, rfl, ?_⟩
  · have hw : get_winner [(c, tally ballots [c] c)] = some c := by
      have hthr : get_majority (totalVotes [(c, tally ballots [c] c)]) ≤ tally ballots [c] c := by
        simp only [totalVotes, List.map_cons, List.map_nil, List.sum_cons, List.sum_nil,
          get_majority]
        omega
      unfold get_winner
      rw [List.find?_cons_of_pos _ (by simpa using hthr)]
      rfl
    show countLoop ballots (1 + 1) [c] = _
    rw [countLoop_succ, htot, hw]
  · have hflt : [c].filter (fun x => decide (x ∉ [c])) = [] := by simp
    have hstep : countLoop [] (1 + 1) [c] =
        ⟨⟨[(c, 0)], []⟩ :: (countLoop [] 1 ([c].filter (fun x => decide (x ∉ [c])))).rounds,
          (countLoop [] 1 ([c].filter (fun x => decide (x ∉ [c])))).outcome⟩ := rfl
    show countLoop [] (1 + 1) [c] = _
    rw [hstep, hflt]
    exact rfl

/-- Witness for C8: a one-candidate contest with one ballot of weight 2. -/
theorem single_candidate_spec_witness :
    (1 ≤ tally [(2,[1])] [1] 1 ∧
      count [(2,[1])] [1] = ⟨[⟨[(1, tally [(2,[1])] [1] 1)], [1]⟩], .won 1⟩) ∧
    (get_majority 0 = 1 ∧
      count [] [1] = ⟨[⟨[(1, 0)], []⟩, ⟨[], []⟩], .pyError "dict has no values"⟩) :=
  single_candidate_spec 1 [(2,[1])] (by decide)

/-- C8 counterexample: a contest with exactly one candidate and one ballot
(of weight 1 with an empty choice list) elects nobody in round 1 — the
claimed "at least one ballot implies a round-1 winner" fails — and the run
then aborts with `ValueError` in round 2. -/
theorem single_candidate_cex :
    count [(1, ([] : List Nat))] [1] =
      ⟨[⟨[(1, 0)], []⟩, ⟨[], []⟩], .pyError "dict has no values"⟩ ∧
    ∀ r ∈ (count [(1, ([] : List Nat))] [1]).rounds, r.elected = [] := by decide

/-! ### The choice-sequence order (Python tuple comparison) -/

theorem choicesLt_irrefl : ∀ x : List Nat, choicesLt x x = false := by
  intro x
  induction x with
  | nil => rfl
  | cons a as ih => simp [choicesLt, ih]

theorem choicesLt_asymm : ∀ x y : List Nat,
    choicesLt x y = true → choicesLt y x = false := by
  intro x
  induction x with
  | nil =>
    intro y h
    cases y with
    | nil => cases h
    | cons b bs => rfl
  | cons a as ih =>
    intro y h
    cases y with
    | nil => cases h
    | cons b bs =>
      simp only [choicesLt] at h ⊢
      by_cases hab : a < b
      · rw [if_neg (by omega), if_pos hab]
      · by_cases hba : b < a
        · rw [if_neg hab, if_pos hba] at h
          cases h
        · rw [if_neg hab, if_neg hba] at h
          rw [if_neg hba, if_neg hab]
          exact ih bs h

theorem choicesLt_trans : ∀ x y z : List Nat,
    choicesLt x y = true → choicesLt y z = true → choicesLt x z = true := by
  intro x
  induction x with
  | nil =>
    intro y z hxy hyz
    cases z with
    | nil =>
      cases y with
      | nil => cases hxy
      | cons b bs => cases hyz
    | cons c cs => rfl
  | cons a as ih =>
    intro y z hxy hyz
    cases y with
    | nil => cases hxy
    | cons b bs =>
      cases z with
      | nil => cases hyz
      | cons c cs =>
        simp only [choicesLt] at hxy hyz ⊢
        by_cases hab : a < b
        · by_cases hbc : b < c
          · rw [if_pos (by omega)]
          · by_cases hcb : c < b
            · rw [if_neg hbc, if_pos hcb] at hyz
              cases hyz
            · rw [if_pos (by omega)]
        · by_cases hba : b < a
          · rw [if_neg hab, if_pos hba] at hxy
            cases hxy
          · rw [if_neg hab, if_neg hba] at hxy
            by_cases hbc : b < c
            · rw [if_pos (by omega)]
            · by_cases hcb : c < b
              · rw [if_neg hbc, if_pos hcb] at hyz
                cases hyz
              · rw [if_neg hbc, if_neg hcb] at hyz
                rw [if_neg (by omega), if_neg (by omega)]
                exact ih bs cs hxy hyz

theorem choicesLt_connex : ∀ x y : List Nat,
    choicesLt x y = false → choicesLt y x = false → x = y := by
  intro x
  induction x with
  | nil =>
    intro y hxy _
    cases y with
    | nil => rfl
    | cons b bs => cases hxy
  | cons a as ih =>
    intro y hxy hyx
    cases y with
    | nil => cases hyx
    | cons b bs =>
      simp only [choicesLt] at hxy hyx
      by_cases hab : a < b
      · rw [if_pos hab] at hxy
        cases hxy
      · by_cases hba : b < a
        · rw [if_pos hba] at hyx
          cases hyx
        · have hax : a = b := by omega
          subst hax
          rw [if_neg hab, if_neg hab] at hxy hyx
          rw [ih bs hxy hyx]

theorem cle_iff (x y : List Nat) : cle x y ↔ choicesLt y x = false := by
  unfold cle choicesLe
  cases h : choicesLt y x <;> simp

instance : IsTotal (List Nat) cle :=
  ⟨by
    intro x y
    cases h : choicesLt y x with
    | false => exact Or.inl ((cle_iff x y).2 h)
    | true => exact Or.inr ((cle_iff y x).2 (choicesLt_asymm y x h))⟩

instance : IsTrans (List Nat) cle :=
  ⟨by
    intro x y z hxy hyz
    rw [cle_iff] at hxy hyz ⊢
    cases hzx : choicesLt z x with
    | false => rfl
    | true =>
      exfalso
      cases hyz2 : choicesLt y z with
      | false =>
        have hyx : y = z := choicesLt_connex y z hyz2 hyz
        subst hyx
        rw [hzx] at hxy
        cases hxy
      | true =>
        have := choicesLt_trans y z x hyz2 hzx
        rw [this] at hxy
        cases hxy⟩

theorem pairwise_lt_of_cle_nodup {K : List (List Nat)}
    (hs : List.Pairwise cle K) (hnd : K.Nodup) :
    List.Pairwise (fun a b => choicesLt a b = true) K := by
  have hand := hs.and hnd
  refine hand.imp ?_
  intro a b hab
  rcases hab with ⟨hab1, hab2⟩
  rw [cle_iff] at hab1
  cases h : choicesLt a b with
  | true => rfl
  | false => exact absurd (choicesLt_connex a b h hab1) hab2

/-! ### Ballot normalization -/

theorem normalize_keys (source : List Ballot) :
    (normalize_ballots source).map Prod.snd =
      List.insertionSort cle ((source.map Prod.snd).dedup) := by
  unfold normalize_ballots
  rw [List.map_map]
  exact List.map_id' _

theorem sum_map_add {α : Type} (f g : α → Nat) (K : List α) :
    (K.map (fun c => f c + g c)).sum = (K.map f).sum + (K.map g).sum := by
  induction K with
  | nil => rfl
  | cons a K ih =>
    simp only [List.map_cons, List.sum_cons, ih]
    omega

theorem sum_map_ite_zero {K : List (List Nat)} {c : List Nat} (w : Nat) (h : c ∉ K) :
    (K.map (fun k => if c = k then w else 0)).sum = 0 := by
  induction K with
  | nil => rfl
  | cons a K ih =>
    have hne : c ≠ a := fun e => h (e ▸ List.mem_cons_self a K)
    have h2 : c ∉ K := fun m => h (List.mem_cons_of_mem a m)
    simp [List.map_cons, List.sum_cons, if_neg hne, ih h2]

theorem sum_map_ite_eq {K : List (List Nat)} {c : List Nat} (w : Nat)
    (hnd : K.Nodup) (hc : c ∈ K) :
    (K.map (fun k => if c = k then w else 0)).sum = w := by
  induction K with
  | nil => cases hc
  | cons a K ih =>
    have hcons := List.nodup_cons.1 hnd
    rcases List.mem_cons.1 hc with rfl | h2
    · simp only [List.map_cons, List.sum_cons, if_pos rfl]
      rw [sum_map_ite_zero w hcons.1]
      simp
    · have hne : c ≠ a := fun e => hcons.1 (e ▸ h2)
      simp only [List.map_cons, List.sum_cons, if_neg hne]
      rw [ih hcons.2 h2]
      simp

theorem cumWeight_cons (b : Ballot) (source : List Ballot) (c : List Nat) :
    cumWeight (b :: source) c = (if b.2 = c then b.1 else 0) + cumWeight source c := by
  by_cases h : b.2 = c <;> simp [cumWeight, List.filter_cons, h]

theorem sum_cumWeight (source : List Ballot) :
    ∀ K : List (List Nat), K.Nodup → (∀ b ∈ source, b.2 ∈ K) →
      (K.map (cumWeight source)).sum = (source.map Prod.fst).sum := by
  induction source with
  | nil =>
    intro K _ _
    have hz : cumWeight [] = fun _ => 0 := rfl
    rw [hz]
    induction K with
    | nil => rfl
    | cons a K ihk => simp [ihk]
  | cons b source ih =>
    intro K hnd hmem
    have hb : b.2 ∈ K := hmem b (List.mem_cons_self b source)
    have hmem2 : ∀ x ∈ source, x.2 ∈ K := fun x hx => hmem x (List.mem_cons_of_mem b hx)
    have hfun : cumWeight (b :: source) =
        fun c => (if b.2 = c then b.1 else 0) + cumWeight source c :=
      funext (cumWeight_cons b source)
    rw [hfun, sum_map_add, sum_map_ite_eq b.1 hnd hb, ih K hnd hmem2]
    simp

/-- C5: `normalize_ballots` emits exactly one ballot per distinct choice
sequence occurring in the source, carrying the summed weight of all source
ballots with that sequence, in strictly increasing lexicographic order
(proper prefixes first); the output ballot count is at most the input count
and the total weight is conserved exactly. -/
theorem normalize_ballots_spec (source : List Ballot) :
    (∀ c, c ∈ (normalize_ballots source).map Prod.snd ↔ c ∈ source.map Prod.snd) ∧
    ((normalize_ballots source).map Prod.snd).Nodup ∧
    List.Pairwise (fun a b => choicesLt a b = true)
      ((normalize_ballots source).map Prod.snd) ∧
    (∀ w c, (w, c) ∈ normalize_ballots source → w = cumWeight source c) ∧
    (normalize_ballots source).length ≤ source.length ∧
    ((normalize_ballots source).map Prod.fst).sum = (source.map Prod.fst).sum := by
  have hkeys := normalize_keys source
  have hperm : (List.insertionSort cle ((source.map Prod.snd).dedup)).Perm
      ((source.map Prod.snd).dedup) := List.perm_insertionSort cle _
  have hnd : ((normalize_ballots source).map Prod.snd).Nodup := by
    rw [hkeys]
    exact hperm.nodup_iff.2 (List.nodup_dedup _)
  refine ⟨?_, hnd, ?_, ?_, ?_, ?_⟩
  · intro c
    rw [hkeys]
    simp [List.mem_dedup]
  · have hsorted : List.Sorted cle (List.insertionSort cle ((source.map Prod.snd).dedup)) :=
      List.sorted_insertionSort cle _
    rw [hkeys]
    apply pairwise_lt_of_cle_nodup hsorted
    rw [← hkeys]
    exact hnd
  · intro w c hwc
    unfold normalize_ballots at hwc
    rcases List.mem_map.1 hwc with ⟨c2, _, heq⟩
    have hw : cumWeight source c2 = w := congrArg Prod.fst heq
    have hc : c2 = c := congrArg Prod.snd heq
    rw [← hw, hc]
  · unfold normalize_ballots
    rw [List.length_map, List.length_insertionSort]
    calc ((source.map Prod.snd).dedup).length
        ≤ (source.map Prod.snd).length := (List.dedup_sublist _).length_le
      _ = source.length := List.length_map _ _
  · have hmapfst : (normalize_ballots source).map Prod.fst =
        (List.insertionSort cle ((source.map Prod.snd).dedup)).map (cumWeight source) := by
      unfold normalize_ballots
      rw [List.map_map]
      rfl
    rw [hmapfst, (hperm.map (cumWeight source)).sum_eq]
    apply sum_cumWeight
    · exact List.nodup_dedup _
    · intro b hb
      exact List.mem_dedup.2 (List.mem_map_of_mem Prod.snd hb)

theorem filter_key_singleton {source : List Ballot}
    (hnd : (source.map Prod.snd).Nodup) :
    ∀ b ∈ source, source.filter (fun x => decide (x.2 = b.2)) = [b] := by
  induction source with
  | nil => intro b hb; cases hb
  | cons a source ih =>
    have hnd2 : (a.2 ∉ source.map Prod.snd) ∧ (source.map Prod.snd).Nodup := by
      rw [List.map_cons] at hnd
      exact List.nodup_cons.1 hnd
    intro b hb
    rcases List.mem_cons.1 hb with rfl | h2
    · rw [List.filter_cons, if_pos (by simp)]
      have hrest : source.filter (fun x => decide (x.2 = b.2)) = [] := by
        rw [List.filter_eq_nil_iff]
        intro x hx
        simp only [decide_eq_true_eq]
        intro he
        exact hnd2.1 (he ▸ List.mem_map_of_mem Prod.snd hx)
      rw [hrest]
    · have hne : a.2 ≠ b.2 := by
        intro he
        exact hnd2.1 (he ▸ List.mem_map_of_mem Prod.snd h2)
      rw [List.filter_cons, if_neg (by simpa using hne), ih hnd2.2 b h2]

theorem cumWeight_self {source : List Ballot} (hnd : (source.map Prod.snd).Nodup) :
    ∀ b ∈ source, cumWeight source b.2 = b.1 := by
  intro b hb
  rw [cumWeight, filter_key_singleton hnd b hb]
  simp

/-- C9: ballot normalization is idempotent: a ballot sequence whose choice
sequences are already distinct and in strictly increasing lexicographic
order is reproduced by `normalize_ballots` unchanged — same ballots, same
weights, same order. -/
theorem normalize_idempotent (source : List Ballot)
    (hs : List.Pairwise (fun a b => choicesLt a b = true) (source.map Prod.snd)) :
    normalize_ballots source = source := by
  have hnd : (source.map Prod.snd).Nodup := by
    refine hs.imp ?_
    intro a b hab he
    subst he
    rw [choicesLt_irrefl] at hab
    cases hab
  have hded : (source.map Prod.snd).dedup = source.map Prod.snd :=
    List.dedup_eq_self.2 hnd
  have hsorted : List.Sorted cle (source.map Prod.snd) := by
    refine hs.imp ?_
    intro a b hab
    exact (cle_iff a b).2 (choicesLt_asymm a b hab)
  have hsort_eq : List.insertionSort cle (source.map Prod.snd) = source.map Prod.snd :=
    hsorted.insertionSort_eq
  unfold normalize_ballots
  rw [hded, hsort_eq, List.map_map]
  have hpt : ∀ b ∈ source, ((fun c => (cumWeight source c, c)) ∘ Prod.snd) b = b := by
    intro b hb
    have hcw := cumWeight_self hnd b hb
    have : ((fun c => (cumWeight source c, c)) ∘ Prod.snd) b = (b.1, b.2) := by
      simp only [Function.comp_apply, hcw]
    rw [this, Prod.mk.eta]
  calc source.map ((fun c => (cumWeight source c, c)) ∘ Prod.snd)
      = source.map (fun b => b) := List.map_congr_left hpt
    _ = source := List.map_id' source

/-- Witness for C9: a sorted, duplicate-free ballot list is reproduced. -/
theorem normalize_idempotent_witness :
    List.Pairwise (fun a b => choicesLt a b = true)
      (([(2,[1]),(3,[1,2]),(1,[2])] : List Ballot).map Prod.snd) ∧
    normalize_ballots [(2,[1]),(3,[1,2]),(1,[2])] = [(2,[1]),(3,[1,2]),(1,[2])] :=
  ⟨by decide, normalize_idempotent [(2,[1]),(3,[1,2]),(1,[2])] (by decide)⟩

theorem foldl_store_append (tgt : Nat) (f : List Nat → Ballot) :
    ∀ (K : List (List Nat)) (st : Nat → List Ballot),
      (K.foldl (fun s choices => fun i => if i = tgt then s i ++ [f choices] else s i) st) tgt =
        st tgt ++ K.map f := by
  intro K
  induction K with
  | nil => intro st; simp
  | cons c K ih =>
    intro st
    rw [List.foldl_cons, ih]
    simp

/-- C10: `normalize_ballots(r, r)` with the same list-backed resource as
source and target leaves the backing list holding exactly the normalized
ballots: the source pass (dict building and sorting) completes before
`open_write` clears the backing store, so in-place use is safe. -/
theorem normalize_inplace_safe (store : Nat → List Ballot) (r : Nat) :
    normalizeStore store r r r = normalize_ballots (store r) := by
  unfold normalizeStore normalize_ballots
  rw [foldl_store_append r (fun choices => (cumWeight (store r) choices, choices))]
  simp

/-! ### Stream reading and error augmentation -/

theorem readingRun_clean (source : String) (body : Nat → Nat → Option PyExc) :
    ∀ (items : List Nat) (i : Nat) (storeErr : Option PyExc),
      (∀ k item, items.get? k = some item → body (i + k) item = none) →
      readingRun source body i items storeErr = storeErr := by
  intro items
  induction items with
  | nil => intro i storeErr _; rfl
  | cons a rest ih =>
    intro i storeErr h
    have h0 : body i a = none := by
      have := h 0 a rfl
      simpa using this
    simp only [readingRun, h0]
    apply ih
    intro k item hk
    have hb := h (k + 1) item (by simpa using hk)
    have harith : i + (k + 1) = (i + 1) + k := by omega
    rw [harith] at hb
    exact hb

theorem readingRun_raises (source : String) (body : Nat → Nat → Option PyExc) :
    ∀ (items : List Nat) (i : Nat) (storeErr : Option PyExc) (k : Nat) (e : PyExc)
      (item : Nat),
      items.get? k = some item → body (i + k) item = some e →
      (∀ j itemj, j < k → items.get? j = some itemj → body (i + j) itemj = none) →
      readingRun source body i items storeErr =
        some ⟨e.ty, trackMsg source (i + k) item⟩ := by
  intro items
  induction items with
  | nil =>
    intro i storeErr k e item hk _ _
    simp at hk
  | cons a rest ih =>
    intro i storeErr k e item hk hbody hprev
    cases k with
    | zero =>
      have ha : a = item := by simpa using hk
      subst ha
      have hb : body i a = some e := by simpa using hbody
      simp only [readingRun, hb]
      have harith : i + 0 = i := by omega
      rw [harith]
    | succ k2 =>
      have h0 : body i a = none := by
        have := hprev 0 a (by omega) rfl
        simpa using this
      simp only [readingRun, h0]
      have harith : i + (k2 + 1) = (i + 1) + k2 := by omega
      rw [harith] at hbody ⊢
      apply ih (i + 1) storeErr k2 e item (by simpa using hk) hbody
      intro j itemj hj hjm
      have := hprev (j + 1) itemj (by omega) (by simpa using hjm)
      have harith2 : i + (j + 1) = (i + 1) + j := by omega
      rw [harith2] at this
      exact this

/-- C6 (amended): an exception raised by the consumer while the `reading()`
sequence is in use is re-raised with the same type and a message carrying
the 1-based index of the item being read and that item's value; an
exception raised by the backing store itself during iteration propagates
unchanged, without positional context. -/
theorem reading_error_augmentation (source : String) (items : List Nat)
    (storeErr : Option PyExc) (body : Nat → Nat → Option PyExc) :
    ((∀ k item, items.get? k = some item → body (k + 1) item = none) →
      runReading source items storeErr body = storeErr) ∧
    (∀ k e item, items.get? k = some item → body (k + 1) item = some e →
      (∀ j itemj, j < k → items.get? j = some itemj → body (j + 1) itemj = none) →
      runReading source items storeErr body =
        some ⟨e.ty, trackMsg source (k + 1) item⟩) := by
  constructor
  · intro h
    apply readingRun_clean
    intro k item hk
    have hb := h k item hk
    rw [Nat.add_comm 1 k]
    exact hb
  · intro k e item hk hb hprev
    have hout := readingRun_raises source body items 1 storeErr k e item hk
      (by rw [Nat.add_comm 1 k]; exact hb)
      (fun j itemj hj hjm => by rw [Nat.add_comm 1 j]; exact hprev j itemj hj hjm)
    rw [Nat.add_comm 1 k] at hout
    exact hout

/-- Witness for C6: a consumer exception on the first item is re-raised as
the same type with the positional `tracked` message. -/
theorem reading_error_augmentation_witness :
    runReading "store" [7] none (fun _ _ => some ⟨"KeyError", "bad"⟩) =
      some ⟨"KeyError", trackMsg "store" 1 7⟩ :=
  (reading_error_augmentation "store" [7] none (fun _ _ => some ⟨"KeyError", "bad"⟩)).2
    0 ⟨"KeyError", "bad"⟩ 7 rfl rfl (fun j itemj hj _ => absurd hj (by omega))

theorem trackMsg_length (source : String) (i item : Nat) :
    20 ≤ (trackMsg source i item).length := by
  unfold trackMsg
  simp only [String.length_append]
  have h1 : ("last read item from " : String).length = 20 := rfl
  omega

/-- C6 counterexample: a backing store that raises `ValueError("boom")`
during iteration (here before yielding any item) propagates the original
exception unchanged: its message is still `"boom"`, which carries no
positional context (every `tracked` message has at least 20 characters). -/
theorem reading_store_error_cex :
    runReading "store" [] (some ⟨"ValueError", "boom"⟩) (fun _ _ => none) =
      some ⟨"ValueError", "boom"⟩ ∧
    ∀ i item, "boom" ≠ trackMsg "store" i item := by
  constructor
  · rfl
  · intro i item h
    have hlen : ("boom" : String).length = (trackMsg "store" i item).length :=
      congrArg String.length h
    have h4 : ("boom" : String).length = 4 := rfl
    have h20 := trackMsg_length "store" i item
    omega

/-- C1: the scenario contest (candidates 1-3, ballots
`[(5,[1,2]), (3,[2,1]), (2,[3,1])]`) produces exactly two rounds: round 1
totals 5/3/2 with total 10 and threshold 6, no winner, candidate 3 lowest and
eliminated; round 2 totals 7/3 and candidate 1 elected in round 2. -/
theorem scenario_tabulation :
    count [(5,[1,2]),(3,[2,1]),(2,[3,1])] [1,2,3] =
      ⟨[⟨[(1,5),(2,3),(3,2)], []⟩, ⟨[(1,7),(2,3)], [1]⟩], .won 1⟩ ∧
    totalVotes [(1,5),(2,3),(3,2)] = 10 ∧
    get_majority 10 = 6 ∧
    get_winner [(1,5),(2,3),(3,2)] = none ∧
    get_lowest [(1,5),(2,3),(3,2)] = .ok [3] ∧
    totalVotes [(1,7),(2,3)] = 10 ∧
    get_winner [(1,7),(2,3)] = some 1 := by decide

end OpenRcv
